import Mathlib

/-!
Shallow embedding of the co-purchase recommendation engine in
`lab5.4/task3.py`: graph builder, candidate scorer, fairness re-ranker,
explainer and the `recommend_for_user` pipeline.

Modelling conventions:
* Python `dict` / `defaultdict` values are association lists kept in
  insertion order; `dict[k] += v` updates the entry in place when the key
  is present and appends `(k, default + v)` otherwise (`addTo`).
* Python `float` is modelled by `ℚ` (all arithmetic in the program is
  exact on the inputs considered) and Python `int` by `Int`.
* `sorted(..., key=..., reverse=True)` is a stable descending sort; it is
  modelled by the stable insertion sort `sortDesc`, which produces the
  unique stable descending ordering, the same list Python's stable sort
  returns.
-/

/-- Association-list lookup, mirroring Python `dict.get`. -/
def alookup {α β : Type} [DecidableEq α] : List (α × β) → α → Option β
  | [], _ => none
  | (k, v) :: rest, a => if k = a then some v else alookup rest a

/-- `m[k] += v` on a `defaultdict` with default `0`: update in place when
the key is present, append `(k, 0 + v)` otherwise. -/
def addTo {α β : Type} [DecidableEq α] [Zero β] [Add β] :
    List (α × β) → α → β → List (α × β)
  | [], k, v => [(k, 0 + v)]
  | (k', v') :: rest, k, v =>
    if k' = k then (k', v' + v) :: rest else (k', v') :: addTo rest k v

/-- The keys of an association list, in order. -/
def keysOf {α β : Type} (m : List (α × β)) : List α := m.map Prod.fst

/-- Deduplication keeping the first occurrence of each element, mirroring
Python `list(dict.fromkeys(products))`; `seen` accumulates elements already
emitted. -/
def dedupGo {α : Type} [DecidableEq α] : List α → List α → List α
  | [], _ => []
  | x :: xs, seen =>
    if x ∈ seen then dedupGo xs seen else x :: dedupGo xs (x :: seen)

/-- `list(dict.fromkeys(l))`: first occurrences, order preserved. -/
def dedupFirst {α : Type} [DecidableEq α] (l : List α) : List α := dedupGo l []

/-- All pairs `(l[i], l[j])` with `i < j`, in the order of the two nested
loops of `build_copurchase_graph`. -/
def ordPairs {α : Type} : List α → List (α × α)
  | [] => []
  | x :: xs => xs.map (fun y => (x, y)) ++ ordPairs xs

/-- Product record from `task3.py`. -/
structure Product where
  product_id : String
  title : String
  brand : String
  category : String
deriving DecidableEq

/-- `Dict[Tuple[str, str], int]` of co-purchase counts. -/
abbrev Graph := List ((String × String) × Int)

/-- `Dict[str, Product]` catalog. -/
abbrev Catalog := List (String × Product)

/-- The two increments `edge_to_count[(a, b)] += 1; edge_to_count[(b, a)] += 1`. -/
def addPair (g : Graph) (a b : String) : Graph :=
  addTo (addTo g (a, b) 1) (b, a) 1

/-- The inner double loop of `build_copurchase_graph` for one user's
deduplicated purchase list. -/
def addUserPairs (g : Graph) (ps : List String) : Graph :=
  (ordPairs (dedupFirst ps)).foldl (fun g p => addPair g p.1 p.2) g

/-- `build_copurchase_graph`: co-purchase counts over all users. -/
def build_copurchase_graph (purchase_history : List (String × List String)) : Graph :=
  purchase_history.foldl (fun g up => addUserPairs g up.2) []

/-- `score_candidates`: weighted co-purchase sums.  For the owned item at
position `idx` the weight is `decay ^ idx`; every edge `(owned, b)` with
`b` not among the user's products contributes `count * weight` to `b`. -/
def score_candidates (target_user_products : List String) (edge_to_count : Graph)
    (decay : ℚ) : List (String × ℚ) :=
  target_user_products.enum.foldl
    (fun m iw =>
      edge_to_count.foldl
        (fun m e =>
          if e.1.1 = iw.2 ∧ ¬ e.1.2 ∈ target_user_products then
            addTo m e.1.2 ((e.2 : ℚ) * decay ^ iw.1)
          else m)
        m)
    []

/-- Stable descending insertion: the new element goes after every element
whose key is at least as large. -/
def insertDesc {α β : Type} [LinearOrder β] (key : α → β) : List α → α → List α
  | [], x => [x]
  | h :: t, x => if key x ≤ key h then h :: insertDesc key t x else x :: h :: t

/-- Stable descending sort by `key`, modelling
`sorted(..., key=..., reverse=True)`. -/
def sortDesc {α β : Type} [LinearOrder β] (key : α → β) (l : List α) : List α :=
  l.foldl (insertDesc key) []

/-- First selection loop of `fairness_rerank`: walk the sorted candidates,
skip unknown products and brands at their cap, stop once `top_k` items are
chosen and category diversity is reached.  Returns the chosen list. -/
def firstPass (products : Catalog) (top_k max_per_brand min_category_diversity : Int) :
    List (String × ℚ) → (String → Nat) → List (String × ℚ) → List String →
      List (String × ℚ)
  | [], _, chosen, _ => chosen
  | e :: rest, brand_counter, chosen, categories_present =>
    match alookup products e.1 with
    | none => firstPass products top_k max_per_brand min_category_diversity
        rest brand_counter chosen categories_present
    | some prod =>
      if max_per_brand ≤ (brand_counter prod.brand : Int) then
        firstPass products top_k max_per_brand min_category_diversity
          rest brand_counter chosen categories_present
      else
        let brand_counter' := fun b =>
          if b = prod.brand then brand_counter b + 1 else brand_counter b
        let chosen' := chosen ++ [e]
        let categories' := categories_present.insert prod.category
        if (chosen'.length : Int) = top_k ∧
            min_category_diversity ≤ (categories'.length : Int) then chosen'
        else firstPass products top_k max_per_brand min_category_diversity
          rest brand_counter' chosen' categories'

/-- Backfill loop of `fairness_rerank`: re-scan the sorted list, append any
catalog-present pair not already chosen, stop at `top_k`. -/
def backfill (products : Catalog) (top_k : Int) :
    List (String × ℚ) → List (String × ℚ) → List (String × ℚ)
  | [], chosen => chosen
  | e :: rest, chosen =>
    if e ∈ chosen then backfill products top_k rest chosen
    else
      match alookup products e.1 with
      | none => backfill products top_k rest chosen
      | some _ =>
        let chosen' := chosen ++ [e]
        if (chosen'.length : Int) = top_k then chosen'
        else backfill products top_k rest chosen'

/-- The list selected by the first pass of `fairness_rerank`, before any
backfill. -/
def firstPassChosen (candidates : List (String × ℚ)) (products : Catalog)
    (top_k max_per_brand min_category_diversity : Int) : List (String × ℚ) :=
  firstPass products top_k max_per_brand min_category_diversity
    (sortDesc (fun e => e.2) candidates) (fun _ => 0) [] []

/-- `fairness_rerank`: first pass, then backfill when fewer than `top_k`
items were selected. -/
def fairness_rerank (candidates : List (String × ℚ)) (products : Catalog)
    (top_k max_per_brand min_category_diversity : Int) : List (String × ℚ) :=
  let chosen := firstPassChosen candidates products top_k max_per_brand
    min_category_diversity
  if (chosen.length : Int) < top_k then
    backfill products top_k (sortDesc (fun e => e.2) candidates) chosen
  else chosen

/-- `products.get(x).title if x in products else x`. -/
def titleOf (products : Catalog) (pid : String) : String :=
  match alookup products pid with
  | some p => p.title
  | none => pid

/-- The `(owned, count)` contributions with positive co-purchase count, in
owned order, as collected by `explain_recommendation`. -/
def contributionsOf (user_products : List String) (edge_to_count : Graph)
    (product_id : String) : List (String × Int) :=
  user_products.filterMap (fun owned =>
    let count := (alookup edge_to_count (owned, product_id)).getD 0
    if 0 < count then some (owned, count) else none)

/-- One `"<owned title> (<count>)"` fragment. -/
def renderPart (products : Catalog) (oc : String × Int) : String :=
  titleOf products oc.1 ++ " (" ++ toString oc.2 ++ ")"

/-- `explain_recommendation`: top-3 positive contributions rendered, with a
generic fallback when there are none. -/
def explain_recommendation (product_id : String) (user_products : List String)
    (edge_to_count : Graph) (products : Catalog) : String :=
  let top_parts :=
    ((sortDesc (fun oc => oc.2) (contributionsOf user_products edge_to_count
        product_id)).take 3).map (renderPart products)
  if top_parts = [] then
    "Recommended \x27" ++ titleOf products product_id ++
      "\x27 based on similar users\x27 purchases."
  else
    "Recommended \x27" ++ titleOf products product_id ++
      "\x27 because you bought: " ++ String.intercalate ", " top_parts

/-- `recommend_for_user`: the whole pipeline, with the source's default
decay `0.85` and re-rank defaults `max_per_brand = 2`,
`min_category_diversity = 2`. -/
def recommend_for_user (user_id : String)
    (purchase_history : List (String × List String)) (products : Catalog)
    (top_k : Int) : List (String × ℚ × String) :=
  let user_products := (alookup purchase_history user_id).getD []
  let edge_to_count := build_copurchase_graph purchase_history
  let raw_scores := score_candidates user_products edge_to_count (17 / 20)
  let reranked := fairness_rerank raw_scores products top_k 2 2
  reranked.map (fun e =>
    (e.1, e.2, explain_recommendation e.1 user_products edge_to_count products))

/-! ### Basic association-map lemmas -/

theorem alookup_addTo {α β : Type} [DecidableEq α] [Zero β] [Add β]
    (m : List (α × β)) (k : α) (v : β) (a : α) :
    alookup (addTo m k v) a =
      if a = k then some ((alookup m k).getD 0 + v) else alookup m a := by
  induction m with
  | nil =>
    by_cases h : a = k
    · subst h; simp [addTo, alookup]
    · have h' : ¬ k = a := fun hh => h hh.symm
      simp [addTo, alookup, h, h']
  | cons e rest ih =>
    obtain ⟨k', v'⟩ := e
    by_cases hk : k' = k
    · subst hk
      by_cases ha : k' = a
      · subst ha; simp [addTo, alookup]
      · have ha' : ¬ a = k' := fun hh => ha hh.symm
        simp [addTo, alookup, ha, ha']
    · by_cases ha : k' = a
      · subst ha
        simp [addTo, alookup, hk]
      · simp [addTo, alookup, hk, ha, ih]

theorem mem_keysOf_addTo {α β : Type} [DecidableEq α] [Zero β] [Add β]
    (m : List (α × β)) (k : α) (v : β) (a : α)
    (h : a ∈ keysOf (addTo m k v)) : a ∈ keysOf m ∨ a = k := by
  induction m with
  | nil => simpa [addTo, keysOf] using h
  | cons e rest ih =>
    by_cases hk : e.1 = k
    · left
      obtain ⟨k', v'⟩ := e
      subst hk
      simpa [addTo, keysOf] using h
    · obtain ⟨k', v'⟩ := e
      simp only [addTo, if_neg hk, keysOf, List.map_cons, List.mem_cons] at h ⊢
      rcases h with h | h
      · exact Or.inl (Or.inl h)
      · rcases ih h with h' | h'
        · exact Or.inl (Or.inr h')
        · exact Or.inr h'

/-! ### Concrete inputs used by the claims -/

/-- History from the spec's graph example. -/
def historyC2 : List (String × List String) :=
  [("u1", ["p1", "p3", "p4"]), ("u2", ["p1", "p2", "p6"]), ("u3", ["p3", "p6"])]

/-- A two-item catalog with distinct brands and categories. -/
def catalogAB : Catalog :=
  [("a", Product.mk "a" "A" "BrX" "C1"), ("b", Product.mk "b" "B" "BrY" "C2")]

/-- Claim C1.  The spec guarantees `|RankedResult| ≤ top_k` always; the
first pass of `fairness_rerank` only stops when `top_k` items are chosen
AND category diversity is reached, so with `top_k = 1` and two candidates
from two categories it keeps accepting past `top_k`: the returned list has
length `2 > top_k = 1`.  This evaluates the code at the failing input. -/
theorem fairness_rerank_exceeds_top_k :
    fairness_rerank [("a", 2), ("b", 1)] catalogAB 1 2 2 = [("a", 2), ("b", 1)] ∧
      ¬ ((fairness_rerank [("a", 2), ("b", 1)] catalogAB 1 2 2).length ≤ 1) := by
  constructor
  · rfl
  · decide

/-- Claim C2 counterexample.  On the spec's example history the edge
`(p3, p6)` has count `1` (only `u3` holds both products), not `2` as the
claim states. -/
theorem copurchase_p3_p6_count_ne_two :
    ¬ alookup (build_copurchase_graph historyC2) ("p3", "p6") = some 2 := by
  decide

/-- Claim C2 as amended: the graph built from the example history contains
edge `(p1, p3)` with count 1 and edge `(p3, p6)` with count 1. -/
theorem copurchase_example_counts :
    alookup (build_copurchase_graph historyC2) ("p1", "p3") = some 1 ∧
      alookup (build_copurchase_graph historyC2) ("p3", "p6") = some 1 := by
  constructor <;> rfl

/-- Claim C3.  `score_candidates` performs no validation of `decay`: called
with `decay = 2`, which is outside `(0, 1]`, it silently computes a
ScoreMap (here scoring `p2` with `1 * 2^1 = 2`) instead of rejecting the
configuration. -/
theorem score_candidates_accepts_invalid_decay :
    ¬ ((0 : ℚ) < 2 ∧ (2 : ℚ) ≤ 1) ∧
      score_candidates ["p1", "p3"] [(("p3", "p2"), 1)] 2 = [("p2", 2)] := by
  constructor
  · decide
  · simp +decide only [score_candidates, List.enum, List.enumFrom, List.foldl, addTo]
    norm_num

/-- Claim C4.  `fairness_rerank` performs no validation of `top_k`: called
with `top_k = 0` it neither raises an error nor clamps, and even returns a
non-empty list (the first-pass stop condition `len(chosen) == top_k` is
never hit once one item is accepted). -/
theorem fairness_rerank_accepts_nonpositive_top_k :
    fairness_rerank [("a", 1)] catalogAB 0 2 2 = [("a", 1)] := by
  rfl

/-! ### Symmetry and no-self-loops of the co-purchase graph (C5) -/

theorem dedupGo_nodup {α : Type} [DecidableEq α] :
    ∀ (l seen : List α), (dedupGo l seen).Nodup ∧ ∀ a ∈ dedupGo l seen, a ∉ seen := by
  intro l
  induction l with
  | nil => intro seen; simp [dedupGo]
  | cons x xs ih =>
    intro seen
    by_cases hx : x ∈ seen
    · simpa [dedupGo, hx] using ih seen
    · simp only [dedupGo, if_neg hx]
      obtain ⟨hnd, hni⟩ := ih (x :: seen)
      refine ⟨List.nodup_cons.mpr ⟨fun hmem => (hni x hmem) (List.mem_cons_self x _), hnd⟩, ?_⟩
      intro a ha
      rcases List.mem_cons.mp ha with rfl | ha'
      · exact hx
      · intro haseen
        exact hni a ha' (List.mem_cons_of_mem _ haseen)

theorem dedupFirst_nodup {α : Type} [DecidableEq α] (l : List α) :
    (dedupFirst l).Nodup := (dedupGo_nodup l []).1

theorem ordPairs_ne {α : Type} {l : List α} (h : l.Nodup) :
    ∀ p ∈ ordPairs l, p.1 ≠ p.2 := by
  induction l with
  | nil => simp [ordPairs]
  | cons x xs ih =>
    intro p hp
    rcases List.mem_append.mp hp with hp' | hp'
    · obtain ⟨y, hy, rfl⟩ := List.mem_map.mp hp'
      intro hxy
      have hxy' : x = y := hxy
      exact (List.nodup_cons.mp h).1 (hxy' ▸ hy)
    · exact ih (List.nodup_cons.mp h).2 p hp'


theorem addPair_symm (g : Graph) (a b : String)
    (h : ∀ x y, alookup g (x, y) = alookup g (y, x)) :
    ∀ x y, alookup (addPair g a b) (x, y) = alookup (addPair g a b) (y, x) := by
  intro x y
  by_cases hab : a = b
  · subst hab
    by_cases hxy : x = y
    · subst hxy; rfl
    · have h1 : ¬ ((x, y) = (a, a)) := by
        simp only [Prod.mk.injEq, not_and]
        intro hxa hya
        exact hxy (hxa.trans hya.symm)
      have h2 : ¬ ((y, x) = (a, a)) := by
        simp only [Prod.mk.injEq, not_and]
        intro hya hxa
        exact hxy (hxa.trans hya.symm)
      simp only [addPair, alookup_addTo, if_neg h1, if_neg h2]
      exact h x y
  · have hba2 : ¬ ((b, a) = (a, b)) := by
      simp only [Prod.mk.injEq, not_and]
      intro hb _
      exact hab hb.symm
    have hab2 : ¬ ((a, b) = (b, a)) := by
      simp only [Prod.mk.injEq, not_and]
      intro ha _
      exact hab ha
    by_cases h1 : (x, y) = (b, a)
    · have hx : x = b := (Prod.ext_iff.mp h1).1
      have hy : y = a := (Prod.ext_iff.mp h1).2
      have h1' : (y, x) = (a, b) := by rw [hx, hy]
      rw [h1, h1']
      simp only [addPair, alookup_addTo, if_pos rfl, if_neg hba2, if_neg hab2]
      rw [h b a]
    · by_cases h2 : (x, y) = (a, b)
      · have hx : x = a := (Prod.ext_iff.mp h2).1
        have hy : y = b := (Prod.ext_iff.mp h2).2
        have h2' : (y, x) = (b, a) := by rw [hx, hy]
        rw [h2, h2']
        simp only [addPair, alookup_addTo, if_pos rfl, if_neg hba2, if_neg hab2]
        rw [h a b]
      · have h3 : ¬ ((y, x) = (b, a)) := by
          intro hp
          have hy : y = b := (Prod.ext_iff.mp hp).1
          have hx : x = a := (Prod.ext_iff.mp hp).2
          exact h2 (by rw [hx, hy])
        have h4 : ¬ ((y, x) = (a, b)) := by
          intro hp
          have hy : y = a := (Prod.ext_iff.mp hp).1
          have hx : x = b := (Prod.ext_iff.mp hp).2
          exact h1 (by rw [hx, hy])
        simp only [addPair, alookup_addTo, if_neg h1, if_neg h2, if_neg h3, if_neg h4]
        exact h x y

theorem addPair_noSelf (g : Graph) (a b : String) (hab : a ≠ b)
    (h : ∀ x, alookup g (x, x) = none) :
    ∀ x, alookup (addPair g a b) (x, x) = none := by
  intro x
  have h1 : ¬ ((x, x) = (b, a)) := by
    intro hp
    exact hab ((Prod.ext_iff.mp hp).2.symm.trans (Prod.ext_iff.mp hp).1)
  have h2 : ¬ ((x, x) = (a, b)) := by
    intro hp
    exact hab ((Prod.ext_iff.mp hp).1.symm.trans (Prod.ext_iff.mp hp).2)
  simp only [addPair, alookup_addTo, if_neg h1, if_neg h2]
  exact h x

theorem foldl_addPair_symm :
    ∀ (ps : List (String × String)) (g : Graph),
      (∀ x y, alookup g (x, y) = alookup g (y, x)) →
      ∀ x y, alookup (ps.foldl (fun g p => addPair g p.1 p.2) g) (x, y) =
        alookup (ps.foldl (fun g p => addPair g p.1 p.2) g) (y, x) := by
  intro ps
  induction ps with
  | nil => intro g hg; exact hg
  | cons p rest ih =>
    intro g hg
    exact ih (addPair g p.1 p.2) (addPair_symm g p.1 p.2 hg)

theorem foldl_addPair_noSelf :
    ∀ (ps : List (String × String)) (g : Graph),
      (∀ p ∈ ps, p.1 ≠ p.2) →
      (∀ x, alookup g (x, x) = none) →
      ∀ x, alookup (ps.foldl (fun g p => addPair g p.1 p.2) g) (x, x) = none := by
  intro ps
  induction ps with
  | nil => intro g _ hg; exact hg
  | cons p rest ih =>
    intro g hps hg
    exact ih (addPair g p.1 p.2)
      (fun q hq => hps q (List.mem_cons_of_mem p hq))
      (addPair_noSelf g p.1 p.2 (hps p (List.mem_cons_self p rest)) hg)

theorem addUserPairs_symm (g : Graph) (ps : List String)
    (hg : ∀ x y, alookup g (x, y) = alookup g (y, x)) :
    ∀ x y, alookup (addUserPairs g ps) (x, y) = alookup (addUserPairs g ps) (y, x) :=
  foldl_addPair_symm (ordPairs (dedupFirst ps)) g hg

theorem addUserPairs_noSelf (g : Graph) (ps : List String)
    (hg : ∀ x, alookup g (x, x) = none) :
    ∀ x, alookup (addUserPairs g ps) (x, x) = none :=
  foldl_addPair_noSelf (ordPairs (dedupFirst ps)) g
    (ordPairs_ne (dedupFirst_nodup ps)) hg

/-- Claim C5.  The co-purchase graph is symmetric — the stored count for
`(a, b)` always equals the stored count for `(b, a)`, including joint
absence — and contains no self-pair `(a, a)`. -/
theorem copurchase_graph_symm_noSelf (purchase_history : List (String × List String)) :
    (∀ a b, alookup (build_copurchase_graph purchase_history) (a, b) =
        alookup (build_copurchase_graph purchase_history) (b, a)) ∧
    (∀ a, alookup (build_copurchase_graph purchase_history) (a, a) = none) := by
  have main : ∀ (h : List (String × List String)) (g : Graph),
      (∀ x y, alookup g (x, y) = alookup g (y, x)) →
      (∀ x, alookup g (x, x) = none) →
      (∀ x y, alookup (h.foldl (fun g up => addUserPairs g up.2) g) (x, y) =
          alookup (h.foldl (fun g up => addUserPairs g up.2) g) (y, x)) ∧
      (∀ x, alookup (h.foldl (fun g up => addUserPairs g up.2) g) (x, x) = none) := by
    intro h
    induction h with
    | nil => intro g hs hn; exact ⟨hs, hn⟩
    | cons up rest ih =>
      intro g hs hn
      exact ih (addUserPairs g up.2) (addUserPairs_symm g up.2 hs)
        (addUserPairs_noSelf g up.2 hn)
  exact main purchase_history [] (fun _ _ => rfl) (fun _ => rfl)

/-! ### Score exclusivity (C6) -/

theorem keys_score_inner (target : List String) (owned : String) (w : ℚ) :
    ∀ (g : Graph) (m : List (String × ℚ)),
      (∀ p ∈ keysOf m, p ∉ target) →
      ∀ p ∈ keysOf (g.foldl
        (fun m e =>
          if e.1.1 = owned ∧ ¬ e.1.2 ∈ target then
            addTo m e.1.2 ((e.2 : ℚ) * w)
          else m) m), p ∉ target := by
  intro g
  induction g with
  | nil => intro m hm; exact hm
  | cons e rest ih =>
    intro m hm
    simp only [List.foldl_cons]
    by_cases hc : e.1.1 = owned ∧ ¬ e.1.2 ∈ target
    · rw [if_pos hc]
      refine ih (addTo m e.1.2 ((e.2 : ℚ) * w)) ?_
      intro p hp
      rcases mem_keysOf_addTo m e.1.2 ((e.2 : ℚ) * w) p hp with h' | h'
      · exact hm p h'
      · exact h' ▸ hc.2
    · rw [if_neg hc]
      exact ih m hm

theorem keys_score_outer (target : List String) (g : Graph) (decay : ℚ) :
    ∀ (idxs : List (Nat × String)) (m : List (String × ℚ)),
      (∀ p ∈ keysOf m, p ∉ target) →
      ∀ p ∈ keysOf (idxs.foldl
        (fun m iw =>
          g.foldl
            (fun m e =>
              if e.1.1 = iw.2 ∧ ¬ e.1.2 ∈ target then
                addTo m e.1.2 ((e.2 : ℚ) * decay ^ iw.1)
              else m) m) m), p ∉ target := by
  intro idxs
  induction idxs with
  | nil => intro m hm; exact hm
  | cons iw rest ih =>
    intro m hm
    simp only [List.foldl_cons]
    exact ih _ (keys_score_inner target iw.2 (decay ^ iw.1) g m hm)

/-- Claim C6.  For every owned-products list, graph and decay in `(0, 1]`,
the ScoreMap produced by `score_candidates` contains no product already in
the user's owned-products list. -/
theorem score_exclusivity (target_user_products : List String)
    (edge_to_count : Graph) (decay : ℚ)
    (hd0 : 0 < decay) (hd1 : decay ≤ 1) :
    ∀ p ∈ keysOf (score_candidates target_user_products edge_to_count decay),
      p ∉ target_user_products := by
  have := keys_score_outer target_user_products edge_to_count decay
    target_user_products.enum [] (by simp [keysOf])
  simpa [score_candidates] using this

/-- Witness for C6 at a concrete input: decay `1` lies in `(0, 1]`, the
scorer on owned list `["p1"]` with edge `(p1, p2)` yields key `p2`, and the
theorem gives `p2 ∉ ["p1"]`. -/
theorem score_exclusivity_witness :
    (0 : ℚ) < 1 ∧ (1 : ℚ) ≤ 1 ∧ "p2" ∉ (["p1"] : List String) := by
  refine ⟨by norm_num, le_refl 1, ?_⟩
  refine score_exclusivity ["p1"] [(("p1", "p2"), 1)] 1 (by norm_num) (le_refl 1) "p2" ?_
  simp +decide only [score_candidates, List.enum, List.enumFrom, List.foldl, addTo, keysOf,
    List.map_cons, List.mem_cons]

/-! ### Brand cap in the first pass (C7) -/

/-- Number of entries of `l` whose product (looked up in the catalog) has
brand `b`. -/
def countBrand (products : Catalog) (l : List (String × ℚ)) (b : String) : Nat :=
  l.countP (fun e => decide ((alookup products e.1).map Product.brand = some b))

theorem countBrand_append (products : Catalog) (l₁ l₂ : List (String × ℚ)) (b : String) :
    countBrand products (l₁ ++ l₂) b = countBrand products l₁ b + countBrand products l₂ b :=
  List.countP_append _ l₁ l₂

theorem countBrand_singleton (products : Catalog) (e : String × ℚ) (prod : Product)
    (he : alookup products e.1 = some prod) (b : String) :
    countBrand products [e] b = if prod.brand = b then 1 else 0 := by
  by_cases hb : prod.brand = b
  · simp [countBrand, List.countP_cons, he, hb]
  · simp [countBrand, List.countP_cons, he, hb]

theorem firstPass_countBrand (products : Catalog) (tk mpb mcd : Int) :
    ∀ (l : List (String × ℚ)) (counter : String → Nat) (chosen : List (String × ℚ))
      (cats : List String),
      (∀ b, counter b = countBrand products chosen b) →
      (∀ b, (countBrand products chosen b : Int) ≤ max mpb 0) →
      ∀ b, (countBrand products
        (firstPass products tk mpb mcd l counter chosen cats) b : Int) ≤ max mpb 0 := by
  intro l
  induction l with
  | nil =>
    intro counter chosen cats _ h2 b
    simpa [firstPass] using h2 b
  | cons e rest ih =>
    intro counter chosen cats h1 h2 b
    rcases he : alookup products e.1 with _ | prod
    · simp only [firstPass, he]
      exact ih counter chosen cats h1 h2 b
    · simp only [firstPass, he]
      by_cases hcap : mpb ≤ (counter prod.brand : Int)
      · rw [if_pos hcap]
        exact ih counter chosen cats h1 h2 b
      · rw [if_neg hcap]
        have hcnt : ∀ b', countBrand products (chosen ++ [e]) b' =
            countBrand products chosen b' + (if prod.brand = b' then 1 else 0) := by
          intro b'
          rw [countBrand_append, countBrand_singleton products e prod he]
        have hcap' : (countBrand products chosen prod.brand : Int) < mpb := by
          rw [h1 prod.brand] at hcap
          exact lt_of_not_le hcap
        have h1' : ∀ b', (if b' = prod.brand then counter b' + 1 else counter b') =
            countBrand products (chosen ++ [e]) b' := by
          intro b'
          by_cases hb : b' = prod.brand
          · subst hb
            rw [if_pos rfl, hcnt, if_pos rfl, h1]
          · rw [if_neg hb, hcnt, if_neg (fun hh => hb hh.symm), h1, Nat.add_zero]
        have h2' : ∀ b', (countBrand products (chosen ++ [e]) b' : Int) ≤ max mpb 0 := by
          intro b'
          rw [hcnt]
          by_cases hb : prod.brand = b'
          · subst hb
            rw [if_pos rfl]
            have hle : ((countBrand products chosen prod.brand + 1 : Nat) : Int) ≤ mpb := by
              push_cast
              omega
            exact hle.trans (le_max_left mpb 0)
          · rw [if_neg hb, Nat.add_zero]
            exact h2 b'
        by_cases hbrk : ((chosen ++ [e]).length : Int) = tk ∧
            mcd ≤ (((cats.insert prod.category)).length : Int)
        · rw [if_pos hbrk]
          exact h2' b
        · rw [if_neg hbrk]
          exact ih _ _ _ h1' h2' b

theorem firstPass_sub (products : Catalog) (tk mpb mcd : Int) :
    ∀ (l : List (String × ℚ)) (counter : String → Nat) (chosen : List (String × ℚ))
      (cats : List String),
      ∃ tail, firstPass products tk mpb mcd l counter chosen cats = chosen ++ tail ∧
        tail.Sublist l := by
  intro l
  induction l with
  | nil =>
    intro counter chosen cats
    exact ⟨[], by simp [firstPass], List.nil_sublist []⟩
  | cons e rest ih =>
    intro counter chosen cats
    rcases he : alookup products e.1 with _ | prod
    · obtain ⟨tail, h1, h2⟩ := ih counter chosen cats
      exact ⟨tail, by simp only [firstPass, he]; exact h1, h2.cons e⟩
    · by_cases hcap : mpb ≤ (counter prod.brand : Int)
      · obtain ⟨tail, h1, h2⟩ := ih counter chosen cats
        exact ⟨tail, by simp only [firstPass, he]; rw [if_pos hcap]; exact h1, h2.cons e⟩
      · by_cases hbrk : ((chosen ++ [e]).length : Int) = tk ∧
            mcd ≤ (((cats.insert prod.category)).length : Int)
        · refine ⟨[e], ?_, (List.nil_sublist rest).cons₂ e⟩
          simp only [firstPass, he]
          rw [if_neg hcap, if_pos hbrk]
        · obtain ⟨tail, h1, h2⟩ := ih
            (fun b => if b = prod.brand then counter b + 1 else counter b)
            (chosen ++ [e]) (cats.insert prod.category)
          refine ⟨e :: tail, ?_, h2.cons₂ e⟩
          simp only [firstPass, he]
          rw [if_neg hcap, if_neg hbrk, h1, List.append_assoc, List.singleton_append]

theorem backfill_sub (products : Catalog) (tk : Int) :
    ∀ (l chosen : List (String × ℚ)),
      ∃ tail, backfill products tk l chosen = chosen ++ tail ∧
        tail.Sublist l ∧ ∀ e ∈ tail, e ∉ chosen := by
  intro l
  induction l with
  | nil =>
    intro chosen
    exact ⟨[], by simp [backfill], List.nil_sublist [], by simp⟩
  | cons e rest ih =>
    intro chosen
    by_cases hin : e ∈ chosen
    · obtain ⟨tail, h1, h2, h3⟩ := ih chosen
      exact ⟨tail, by simp only [backfill]; rw [if_pos hin]; exact h1, h2.cons e, h3⟩
    · rcases he : alookup products e.1 with _ | prod
      · obtain ⟨tail, h1, h2, h3⟩ := ih chosen
        exact ⟨tail, by simp only [backfill, he]; rw [if_neg hin]; exact h1, h2.cons e, h3⟩
      · by_cases hlen : ((chosen ++ [e]).length : Int) = tk
        · refine ⟨[e], ?_, (List.nil_sublist rest).cons₂ e, ?_⟩
          · simp only [backfill, he]
            rw [if_neg hin, if_pos hlen]
          · intro x hx
            rw [List.mem_singleton.mp hx]
            exact hin
        · obtain ⟨tail, h1, h2, h3⟩ := ih (chosen ++ [e])
          refine ⟨e :: tail, ?_, h2.cons₂ e, ?_⟩
          · simp only [backfill, he]
            rw [if_neg hin, if_neg hlen, h1, List.append_assoc, List.singleton_append]
          · intro x hx
            rcases List.mem_cons.mp hx with rfl | hx'
            · exact hin
            · intro hxc
              exact h3 x hx' (List.mem_append_left [e] hxc)

/-- Claim C7.  In the portion of the re-ranker's output selected by the
first pass (before any backfill), no brand occurs more than `max_per_brand`
times; moreover the re-ranker's output is exactly that first-pass portion
followed by the backfilled tail. -/
theorem brand_cap_first_pass (candidates : List (String × ℚ)) (products : Catalog)
    (top_k max_per_brand min_category_diversity : Int) (pid : String) (score : ℚ)
    (prod : Product)
    (hmem : (pid, score) ∈
      firstPassChosen candidates products top_k max_per_brand min_category_diversity)
    (hprod : alookup products pid = some prod) :
    (countBrand products
        (firstPassChosen candidates products top_k max_per_brand min_category_diversity)
        prod.brand : Int) ≤ max_per_brand ∧
    ∃ tail, fairness_rerank candidates products top_k max_per_brand
        min_category_diversity =
      firstPassChosen candidates products top_k max_per_brand min_category_diversity
        ++ tail := by
  have hbound : (countBrand products
      (firstPassChosen candidates products top_k max_per_brand min_category_diversity)
      prod.brand : Int) ≤ max max_per_brand 0 :=
    firstPass_countBrand products top_k max_per_brand min_category_diversity
      (sortDesc (fun e => e.2) candidates) (fun _ => 0) [] []
      (fun b => rfl) (fun b => le_max_right _ _) prod.brand
  have hpos : 0 < countBrand products
      (firstPassChosen candidates products top_k max_per_brand min_category_diversity)
      prod.brand := by
    refine List.countP_pos_iff.mpr ⟨(pid, score), hmem, ?_⟩
    simp [hprod]
  constructor
  · rcases le_or_lt 0 max_per_brand with hk | hk
    · rwa [max_eq_left hk] at hbound
    · exfalso
      rw [max_eq_right hk.le] at hbound
      omega
  · unfold fairness_rerank
    by_cases hlt : ((firstPassChosen candidates products top_k max_per_brand
        min_category_diversity).length : Int) < top_k
    · rw [if_pos hlt]
      obtain ⟨tail, h1, _, _⟩ := backfill_sub products top_k
        (sortDesc (fun e => e.2) candidates)
        (firstPassChosen candidates products top_k max_per_brand min_category_diversity)
      exact ⟨tail, h1⟩
    · rw [if_neg hlt]
      exact ⟨[], (List.append_nil _).symm⟩

/-- Witness for C7 at a concrete input: with one catalog-present candidate
and `max_per_brand = 2`, the chosen pair is in the first-pass list, its
brand count is within the cap, and the output extends the first pass. -/
theorem brand_cap_first_pass_witness :
    ("a", (1 : ℚ)) ∈ firstPassChosen [("a", 1)] catalogAB 1 2 2 ∧
      alookup catalogAB "a" = some (Product.mk "a" "A" "BrX" "C1") ∧
      ((countBrand catalogAB (firstPassChosen [("a", 1)] catalogAB 1 2 2)
          (Product.mk "a" "A" "BrX" "C1").brand : Int) ≤ 2 ∧
        ∃ tail, fairness_rerank [("a", 1)] catalogAB 1 2 2 =
          firstPassChosen [("a", 1)] catalogAB 1 2 2 ++ tail) := by
  refine ⟨by decide, by decide, ?_⟩
  exact brand_cap_first_pass [("a", 1)] catalogAB 1 2 2 "a" 1
    (Product.mk "a" "A" "BrX" "C1") (by decide) (by decide)

/-! ### The stable descending sort: permutation and sortedness -/

theorem insertDesc_perm {α β : Type} [LinearOrder β] (key : α → β) :
    ∀ (l : List α) (x : α), (insertDesc key l x).Perm (x :: l) := by
  intro l
  induction l with
  | nil => intro x; exact List.Perm.refl [x]
  | cons h t ih =>
    intro x
    by_cases hle : key x ≤ key h
    · simp only [insertDesc, if_pos hle]
      exact ((ih x).cons h).trans (List.Perm.swap x h t)
    · simp only [insertDesc, if_neg hle]
      exact List.Perm.refl _

theorem sortDesc_perm {α β : Type} [LinearOrder β] (key : α → β) (l : List α) :
    (sortDesc key l).Perm l := by
  have main : ∀ (l acc : List α), (l.foldl (insertDesc key) acc).Perm (acc ++ l) := by
    intro l
    induction l with
    | nil => intro acc; simp
    | cons x xs ih =>
      intro acc
      simp only [List.foldl_cons]
      refine (ih (insertDesc key acc x)).trans ?_
      refine (List.Perm.append_right xs ((insertDesc_perm key acc x))).trans ?_
      exact (List.perm_middle).symm
  simpa using main l []

theorem insertDesc_pairwise {α β : Type} [LinearOrder β] (key : α → β) :
    ∀ (l : List α) (x : α), l.Pairwise (fun a b => key b ≤ key a) →
      (insertDesc key l x).Pairwise (fun a b => key b ≤ key a) := by
  intro l
  induction l with
  | nil => intro x _; simp [insertDesc]
  | cons h t ih =>
    intro x hp
    obtain ⟨hh, ht⟩ := List.pairwise_cons.mp hp
    by_cases hle : key x ≤ key h
    · simp only [insertDesc, if_pos hle]
      refine List.pairwise_cons.mpr ⟨?_, ih x ht⟩
      intro y hy
      rcases List.mem_cons.mp ((insertDesc_perm key t x).mem_iff.mp hy) with rfl | hy'
      · exact hle
      · exact hh y hy'
    · simp only [insertDesc, if_neg hle]
      refine List.pairwise_cons.mpr ⟨?_, hp⟩
      intro y hy
      rcases List.mem_cons.mp hy with rfl | hy'
      · exact (not_le.mp hle).le
      · exact (hh y hy').trans (not_le.mp hle).le

theorem sortDesc_pairwise {α β : Type} [LinearOrder β] (key : α → β) (l : List α) :
    (sortDesc key l).Pairwise (fun a b => key b ≤ key a) := by
  have main : ∀ (l acc : List α), acc.Pairwise (fun a b => key b ≤ key a) →
      (l.foldl (insertDesc key) acc).Pairwise (fun a b => key b ≤ key a) := by
    intro l
    induction l with
    | nil => intro acc h; exact h
    | cons x xs ih =>
      intro acc h
      exact ih (insertDesc key acc x) (insertDesc_pairwise key acc x h)
  exact main l [] (List.Pairwise.nil)

/-! ### Re-rank output pairs come from the candidates, without duplicates (C10) -/

theorem eq_of_nodupKeys {α β : Type} :
    ∀ (l : List (α × β)), (l.map Prod.fst).Nodup →
      ∀ {k : α} {v1 v2 : β}, (k, v1) ∈ l → (k, v2) ∈ l → v1 = v2 := by
  intro l
  induction l with
  | nil => intro _ k v1 v2 h1; cases h1
  | cons e rest ih =>
    intro hnd k v1 v2 h1 h2
    have hnd' : (∀ (x : β), (e.1, x) ∉ rest) ∧ (rest.map Prod.fst).Nodup := by
      simpa using hnd
    rcases List.mem_cons.mp h1 with h1' | h1' <;>
      rcases List.mem_cons.mp h2 with h2' | h2'
    · rw [← h1'] at h2'
      exact ((Prod.ext_iff.mp h2').2).symm
    · exfalso
      have hke : e.1 = k := by rw [← h1']
      exact hnd'.1 v2 (by rw [hke]; exact h2')
    · exfalso
      have hke : e.1 = k := by rw [← h2']
      exact hnd'.1 v1 (by rw [hke]; exact h1')
    · exact ih hnd'.2 h1' h2'

/-- Claim C10.  Every pair in the re-ranker's output is a key-value pair of
the input ScoreMap with the score unchanged, and no product id occurs more
than once in the output (the backfill never duplicates a first-pass
selection).  The ScoreMap keys are unique, as for any Python dict. -/
theorem rerank_pairs_from_candidates (candidates : List (String × ℚ))
    (products : Catalog) (top_k max_per_brand min_category_diversity : Int)
    (hnd : (candidates.map Prod.fst).Nodup) :
    (∀ e ∈ fairness_rerank candidates products top_k max_per_brand
        min_category_diversity, e ∈ candidates) ∧
    ((fairness_rerank candidates products top_k max_per_brand
        min_category_diversity).map Prod.fst).Nodup := by
  set sorted := sortDesc (fun e => e.2) candidates with hsorted
  have hperm : sorted.Perm candidates := sortDesc_perm (fun e => e.2) candidates
  have hsnd : (sorted.map Prod.fst).Nodup := ((hperm.map Prod.fst).nodup_iff).mpr hnd
  obtain ⟨t1, he1, hs1⟩ := firstPass_sub products top_k max_per_brand
    min_category_diversity sorted (fun _ => 0) [] []
  have hfp : firstPassChosen candidates products top_k max_per_brand
      min_category_diversity = t1 := by
    rw [firstPassChosen, ← hsorted]
    simpa using he1
  have hrr : fairness_rerank candidates products top_k max_per_brand
      min_category_diversity =
      if ((firstPassChosen candidates products top_k max_per_brand
          min_category_diversity).length : Int) < top_k then
        backfill products top_k sorted (firstPassChosen candidates products top_k
          max_per_brand min_category_diversity)
      else firstPassChosen candidates products top_k max_per_brand
        min_category_diversity := rfl
  by_cases hlt : ((firstPassChosen candidates products top_k max_per_brand
      min_category_diversity).length : Int) < top_k
  · rw [hrr, if_pos hlt]
    obtain ⟨t2, he2, hs2, hni⟩ := backfill_sub products top_k sorted
      (firstPassChosen candidates products top_k max_per_brand min_category_diversity)
    rw [hfp] at he2 hni
    rw [hfp, he2]
    constructor
    · intro e he
      rcases List.mem_append.mp he with h | h
      · exact hperm.mem_iff.mp (hs1.subset h)
      · exact hperm.mem_iff.mp (hs2.subset h)
    · rw [List.map_append]
      refine List.nodup_append.mpr ⟨?_, ?_, ?_⟩
      · exact List.Nodup.sublist (hs1.map Prod.fst) hsnd
      · exact List.Nodup.sublist (hs2.map Prod.fst) hsnd
      · intro k hk1 hk2
        obtain ⟨e1, he1m, hk1e⟩ := List.mem_map.mp hk1
        obtain ⟨e2, he2m, hk2e⟩ := List.mem_map.mp hk2
        subst hk1e
        have hm1 : e1 ∈ sorted := hs1.subset he1m
        have hm2 : e2 ∈ sorted := hs2.subset he2m
        have h1' : (e1.1, e1.2) ∈ sorted := hm1
        have h2' : (e1.1, e2.2) ∈ sorted := by
          rw [← hk2e]
          exact hm2
        have hveq : e1.2 = e2.2 := eq_of_nodupKeys sorted hsnd h1' h2'
        have hee : e1 = e2 := by
          refine Prod.ext_iff.mpr ⟨hk2e.symm, hveq⟩
        exact hni e2 he2m (hee ▸ he1m)
  · rw [hrr, if_neg hlt, hfp]
    constructor
    · intro e he
      exact hperm.mem_iff.mp (hs1.subset he)
    · exact List.Nodup.sublist (hs1.map Prod.fst) hsnd

/-- Witness for C10 at a concrete input: candidates with distinct keys
`a, b`; both conclusions hold for the evaluated output. -/
theorem rerank_pairs_from_candidates_witness :
    (([("a", (1 : ℚ)), ("b", 2)].map Prod.fst).Nodup) ∧
      ((∀ e ∈ fairness_rerank [("a", 1), ("b", 2)] catalogAB 2 2 2,
          e ∈ [("a", (1 : ℚ)), ("b", 2)]) ∧
        ((fairness_rerank [("a", 1), ("b", 2)] catalogAB 2 2 2).map Prod.fst).Nodup) := by
  refine ⟨by decide, ?_⟩
  exact rerank_pairs_from_candidates [("a", 1), ("b", 2)] catalogAB 2 2 2 (by decide)

/-! ### Unknown user yields an empty result (C8) -/

/-- Claim C8.  For a user id absent from the purchase-history mapping,
`recommend_for_user` returns `[]` rather than an error: the owned-products
list defaults to `[]`, the scorer yields an empty ScoreMap, and the
re-ranker yields an empty list. -/
theorem recommend_unknown_user (user_id : String)
    (purchase_history : List (String × List String)) (products : Catalog)
    (top_k : Int) (h : alookup purchase_history user_id = none) :
    recommend_for_user user_id purchase_history products top_k = [] ∧
      score_candidates [] (build_copurchase_graph purchase_history) (17 / 20) = [] ∧
      fairness_rerank [] products top_k 2 2 = [] := by
  have hscore : score_candidates [] (build_copurchase_graph purchase_history)
      (17 / 20) = [] := rfl
  have hrr : fairness_rerank [] products top_k 2 2 = [] := by
    have hrr0 : fairness_rerank [] products top_k 2 2 =
        if ((firstPassChosen [] products top_k 2 2).length : Int) < top_k then
          backfill products top_k (sortDesc (fun e => e.2) [])
            (firstPassChosen [] products top_k 2 2)
        else firstPassChosen [] products top_k 2 2 := rfl
    rw [hrr0]
    split <;> rfl
  refine ⟨?_, hscore, hrr⟩
  have hmain : recommend_for_user user_id purchase_history products top_k =
      (fairness_rerank
        (score_candidates ((alookup purchase_history user_id).getD [])
          (build_copurchase_graph purchase_history) (17 / 20))
        products top_k 2 2).map
        (fun e => (e.1, e.2,
          explain_recommendation e.1 ((alookup purchase_history user_id).getD [])
            (build_copurchase_graph purchase_history) products)) := rfl
  rw [hmain, h]
  simp only [Option.getD_none, hscore, hrr, List.map_nil]

/-- Witness for C8 at a concrete input: user `u2` is absent from the
history, and the whole pipeline returns empty results. -/
theorem recommend_unknown_user_witness :
    alookup [("u1", ["p1"])] "u2" = none ∧
      (recommend_for_user "u2" [("u1", ["p1"])] catalogAB 5 = [] ∧
        score_candidates [] (build_copurchase_graph [("u1", ["p1"])]) (17 / 20) = [] ∧
        fairness_rerank [] catalogAB 5 2 2 = []) := by
  refine ⟨by decide, ?_⟩
  exact recommend_unknown_user "u2" [("u1", ["p1"])] catalogAB 5 (by decide)

/-! ### The explainer: fallback iff no positive contribution (C9) -/

theorem because_fallback_ne (t x : String) :
    "Recommended \x27" ++ t ++ "\x27 because you bought: " ++ x ≠
      "Recommended \x27" ++ t ++ "\x27 based on similar users\x27 purchases." := by
  intro h
  have hd : "Recommended \x27".data ++
      (t.data ++ ("\x27 because you bought: ".data ++ x.data)) =
      "Recommended \x27".data ++
        (t.data ++ "\x27 based on similar users\x27 purchases.".data) := by
    have hdd := congrArg String.data h
    simp only [String.data_append, List.append_assoc] at hdd
    exact hdd
  have h2 : "\x27 because you bought: ".data ++ x.data =
      "\x27 based on similar users\x27 purchases.".data :=
    List.append_cancel_left (List.append_cancel_left hd)
  have h3 := congrArg (fun l => l[3]?) h2
  simp only at h3
  rw [List.getElem?_append_left (by decide)] at h3
  exact absurd h3 (by decide)

/-- Claim C9.  The explainer returns the generic fallback referencing
similar users' purchases exactly when no owned product has a positive
co-purchase count with the recommended product; otherwise the output lists
at most the top 3 contributing owned products, sorted descending by count,
each rendered by `renderPart` as the owned title followed by the count in
parentheses. -/
theorem explain_characterization (product_id : String) (user_products : List String)
    (edge_to_count : Graph) (products : Catalog) :
    (explain_recommendation product_id user_products edge_to_count products =
        "Recommended \x27" ++ titleOf products product_id ++
          "\x27 based on similar users\x27 purchases." ↔
      ∀ owned ∈ user_products,
        (alookup edge_to_count (owned, product_id)).getD 0 ≤ 0) ∧
    ((∃ owned ∈ user_products,
        0 < (alookup edge_to_count (owned, product_id)).getD 0) →
      ∃ parts rest : List (String × Int),
        (parts ++ rest).Perm (contributionsOf user_products edge_to_count product_id) ∧
        parts.length ≤ 3 ∧
        parts.Pairwise (fun a b => b.2 ≤ a.2) ∧
        (∀ p ∈ parts, ∀ r ∈ rest, r.2 ≤ p.2) ∧
        (∀ oc ∈ parts, oc.1 ∈ user_products ∧
          (alookup edge_to_count (oc.1, product_id)).getD 0 = oc.2 ∧ 0 < oc.2) ∧
        explain_recommendation product_id user_products edge_to_count products =
          "Recommended \x27" ++ titleOf products product_id ++
            "\x27 because you bought: " ++
            String.intercalate ", " (parts.map (renderPart products))) := by
  set contribs := contributionsOf user_products edge_to_count product_id with hc
  set sorted := sortDesc (fun oc => oc.2) contribs with hs
  have hperm : sorted.Perm contribs := sortDesc_perm (fun oc => oc.2) contribs
  have hnil : contribs = [] ↔ ∀ owned ∈ user_products,
      (alookup edge_to_count (owned, product_id)).getD 0 ≤ 0 := by
    rw [hc]
    simp only [contributionsOf, List.filterMap_eq_nil_iff]
    constructor
    · intro hf owned ho
      have hfo := hf owned ho
      rcases lt_or_le 0 ((alookup edge_to_count (owned, product_id)).getD 0) with hp | hp
      · rw [if_pos hp] at hfo
        cases hfo
      · exact hp
    · intro hle owned ho
      rw [if_neg (not_lt.mpr (hle owned ho))]
  have hsorted_nil : sorted = [] ↔ contribs = [] := by
    constructor
    · intro h0
      have := hperm.length_eq
      rw [h0] at this
      exact List.length_eq_zero.mp this.symm
    · intro h0
      have := hperm.length_eq
      rw [h0] at this
      exact List.length_eq_zero.mp this
  have hexp : explain_recommendation product_id user_products edge_to_count products =
      if ((sorted.take 3).map (renderPart products)) = [] then
        "Recommended \x27" ++ titleOf products product_id ++
          "\x27 based on similar users\x27 purchases."
      else
        "Recommended \x27" ++ titleOf products product_id ++
          "\x27 because you bought: " ++
          String.intercalate ", " ((sorted.take 3).map (renderPart products)) := rfl
  have hmapnil : ((sorted.take 3).map (renderPart products)) = [] ↔ contribs = [] := by
    rw [List.map_eq_nil_iff, List.take_eq_nil_iff]
    simp [hsorted_nil]
  constructor
  · constructor
    · intro heq
      by_contra hneg
      push_neg at hneg
      obtain ⟨owned, ho, hpos⟩ := hneg
      have hcn : contribs ≠ [] := by
        intro h0
        exact absurd (hnil.mp h0 owned ho) (not_le.mpr hpos)
      have hmn : ((sorted.take 3).map (renderPart products)) ≠ [] := by
        intro hm
        exact hcn (hmapnil.mp hm)
      rw [hexp, if_neg hmn] at heq
      exact because_fallback_ne (titleOf products product_id)
        (String.intercalate ", " ((sorted.take 3).map (renderPart products))) heq
    · intro hall
      have hmn : ((sorted.take 3).map (renderPart products)) = [] :=
        hmapnil.mpr (hnil.mpr hall)
      rw [hexp, if_pos hmn]
  · rintro ⟨owned, ho, hpos⟩
    have hmem : (owned, (alookup edge_to_count (owned, product_id)).getD 0) ∈ contribs := by
      rw [hc]
      simp only [contributionsOf, List.mem_filterMap]
      exact ⟨owned, ho, by rw [if_pos hpos]⟩
    have hcn : contribs ≠ [] := List.ne_nil_of_mem hmem
    refine ⟨sorted.take 3, sorted.drop 3, ?_, ?_, ?_, ?_, ?_, ?_⟩
    · rw [List.take_append_drop]
      exact hperm
    · exact List.length_take_le 3 sorted
    · exact (sortDesc_pairwise (fun oc => oc.2) contribs).take
    · have hpw := sortDesc_pairwise (fun oc => oc.2) contribs
      rw [← hs, ← List.take_append_drop 3 sorted] at hpw
      exact fun p hp r hr => (List.pairwise_append.mp hpw).2.2 p hp r hr
    · intro oc hoc
      have hocm : oc ∈ contribs := hperm.mem_iff.mp (List.mem_of_mem_take hoc)
      rw [hc] at hocm
      simp only [contributionsOf, List.mem_filterMap] at hocm
      obtain ⟨o, ho2, hf⟩ := hocm
      by_cases hp2 : 0 < (alookup edge_to_count (o, product_id)).getD 0
      · rw [if_pos hp2] at hf
        have hoeq : (o, (alookup edge_to_count (o, product_id)).getD 0) = oc :=
          Option.some_inj.mp hf
        refine ⟨?_, ?_, ?_⟩
        · rw [← hoeq]
          exact ho2
        · rw [← hoeq]
        · rw [← hoeq]
          exact hp2
      · rw [if_neg hp2] at hf
        cases hf
    · have hmn : ((sorted.take 3).map (renderPart products)) ≠ [] := by
        intro hm
        exact hcn (hmapnil.mp hm)
      rw [hexp, if_neg hmn]

/-- Witness for C9 at concrete inputs: with an empty graph no owned product
has a positive count, so the theorem's equivalence yields exactly the
generic fallback string. -/
theorem explain_characterization_witness :
    explain_recommendation "p9" ["p1"] [] [] =
      "Recommended \x27p9\x27 based on similar users\x27 purchases." :=
  (explain_characterization "p9" ["p1"] [] []).1.mpr (by decide)
